import Mathlib

/-!
Verification of the duplicate-checker core of `src/app.py` (a pandas/streamlit
tool that detects duplicate spreadsheet rows under two rules and canonicalizes
the table).  The shallow embedding below translates the source functions:

* a pandas `DataFrame` whose cells were all read as stripped strings
  (`read_excel_as_str`) becomes a `Table`: a column-name list plus a list of
  rows, each row a list of cell strings in column order;
* `run_check_A` (duplicates on all columns except the identifier column,
  stable mergesort on the comparison columns plus the identifier, keep-first
  elimination) is embedded with the stable sort realised as a sort by the
  pair (sort key, original row index) — the standard exact model of a stable
  sort — and `duplicated(keep="first")` realised as a seen-set scan;
* the field normalizers `_to_ascii_lower`, `_norm_bool`, `_norm_rate`,
  `_norm_name`, `_norm_text` and `normalize_core_view` / `run_check_B` are
  embedded char-by-char.  External-library behaviour is modelled at the
  fragment the program exercises: `unicodedata` NFKD decomposition and
  combining-mark stripping are the identity on ASCII and are modelled as the
  identity; Python `str.lower`, `str.strip`, `\s`, `\w` are modelled at ASCII
  level; Python `float(...)` is modelled as an exact parser of plain decimal
  literals (sign, digits, optional fraction) and the `%.6f` formatting as
  exact decimal rounding, so IEEE-754 double rounding is not modelled;
  Python `set` iteration order for the stop-word set is modelled as a fixed
  list order (the stop words do not overlap, so the order is immaterial).
-/

/-- A row of the table: the cell strings in column order (as produced by
`read_excel_as_str`, which reads every cell as a stripped string and fills
blanks with the empty string). -/
abbrev Row := List String

/-- A table: pandas `DataFrame` with all-string cells. -/
structure Table where
  cols : List String
  rows : List Row
deriving DecidableEq

/-- Value of row `r` in column `c` (pandas column access; `""` if the column
is absent or the row is short). -/
def getCell (cols : List String) (r : Row) (c : String) : String :=
  match cols.findIdx? (fun x => decide (x = c)) with
  | some i => r.getD i ("")
  | none => ""

/-- Embedding of `compare_cols = [c for c in df.columns if c != id_col]` in `run_check_A`. -/
def compare_cols (cols : List String) (idCol : String) : List String :=
  cols.filter (fun c => decide (c ≠ idCol))

/-- The Rule-A key of a row: its values in every column except the identifier
column, in table column order. -/
def rowKeyA (cols : List String) (idCol : String) (r : Row) : List String :=
  (compare_cols cols idCol).map (getCell cols r)

/-! ### String comparison

pandas `sort_values` on string columns compares Python strings, i.e.
code-point-wise lexicographic order; that is exactly the Lean `String` order.
The `Bool`-valued comparators below are kernel-computable re-statements of
that order (the builtin `String` order instances do not reduce in the
kernel); they are proved equivalent to the Mathlib order further down. -/

/-- Code-point lexicographic strict order on char lists. -/
def charsLtB : List Char → List Char → Bool
  | [], [] => false
  | [], _ :: _ => true
  | _ :: _, [] => false
  | a :: as, b :: bs => if a < b then true else if b < a then false else charsLtB as bs

/-- Code-point lexicographic strict order on strings (Python `<`). -/
def strLtB (a b : String) : Bool := charsLtB a.data b.data

/-- Lexicographic strict order on string tuples, as pandas compares the
tuples of sort-key column values. -/
def lexLt : List String → List String → Bool
  | [], [] => false
  | [], _ :: _ => true
  | _ :: _, [] => false
  | a :: as, b :: bs => if strLtB a b then true else if strLtB b a then false else lexLt as bs

/-- Order on row indices used to model the stable mergesort of
`sort_values(by=[*compare_cols, id_col], kind="mergesort")`: compare the
sort-key tuples, break exact ties by original row position.  A stable sort by
a key is exactly a sort by the pair (key, original index). -/
def keyIdxLe (k : Nat → List String) (i j : Nat) : Prop :=
  lexLt (k i) (k j) = true ∨ (k i = k j ∧ i ≤ j)

instance keyIdxLe.decRel (k : Nat → List String) : DecidableRel (keyIdxLe k) :=
  fun _ _ => inferInstanceAs (Decidable (_ ∨ _))

/-! ### Keep-first elimination

`df.duplicated(subset, keep="first")` marks a row when an earlier row (in the
current order) has the same key; the kept rows are computed by a seen-set
scan, keeping the first row of each key. -/

/-- Seen-set scan behind `duplicated(keep="first")`: keep each element whose
key has not been seen before. -/
def firstOccurAux {α κ : Type} [DecidableEq κ] (f : α → κ) (seen : List κ) : List α → List α
  | [] => []
  | a :: as =>
    if f a ∈ seen then firstOccurAux f seen as
    else a :: firstOccurAux f (f a :: seen) as

/-- The sublist of `l` keeping, per key `f`, only the first element carrying
that key (pandas `drop_duplicates` / `keep="first"` semantics). -/
def firstOccur {α κ : Type} [DecidableEq κ] (f : α → κ) (l : List α) : List α :=
  firstOccurAux f [] l

/-! ### run_check_A -/

/-- Row of `t` at position `i` (rows are never accessed out of range). -/
def rowAt (t : Table) (i : Nat) : Row := t.rows.getD i []

/-- The tuple a row is sorted by in `run_check_A`: the comparison-column
values followed by the raw identifier string. -/
def sortKeyRow (cols : List String) (idCol : String) (r : Row) : List String :=
  rowKeyA cols idCol r ++ [getCell cols r idCol]

/-- Sort key of the row at index `i`. -/
def sortKeyAt (t : Table) (idCol : String) (i : Nat) : List String :=
  sortKeyRow t.cols idCol (rowAt t i)

/-- Row indices in the order produced by the stable sort of `run_check_A`. -/
def sortedIdxA (t : Table) (idCol : String) : List Nat :=
  List.insertionSort (keyIdxLe (sortKeyAt t idCol)) (List.range t.rows.length)

/-- Rule-A key of the row at index `i`. -/
def keyAt (t : Table) (idCol : String) (i : Nat) : List String :=
  rowKeyA t.cols idCol (rowAt t i)

/-- Indices of the rows kept by `run_check_A` (`_keep` column), in sorted
order: the first row of each Rule-A key group. -/
def keptIdxA (t : Table) (idCol : String) : List Nat :=
  firstOccur (keyAt t idCol) (sortedIdxA t idCol)

/-- Indices of the removed rows, in sorted order. -/
def removedIdxA (t : Table) (idCol : String) : List Nat :=
  (sortedIdxA t idCol).filter (fun i => decide (i ∉ keptIdxA t idCol))

/-- Rule-A keys of all rows, in input order. -/
def keysA (t : Table) (idCol : String) : List (List String) :=
  t.rows.map (rowKeyA t.cols idCol)

/-- Embedding of `df.duplicated(subset=compare_cols, keep=False)`: flag a row when its
Rule-A key occurs in more than one row. -/
def dupMaskA (t : Table) (idCol : String) : List Bool :=
  (keysA t idCol).map (fun k => decide (2 ≤ (keysA t idCol).count k))

/-- Keys of the flagged rows (`df.loc[dup_mask, compare_cols]`). -/
def flaggedKeysA (t : Table) (idCol : String) : List (List String) :=
  ((dupMaskA t idCol).zip (keysA t idCol)).filterMap
    (fun p => if p.1 then some p.2 else none)

/-- Embedding of the group count `df.loc[dup_mask, compare_cols].drop_duplicates().shape[0]
if dup_mask.any() else 0`. -/
def groupCountA (t : Table) (idCol : String) : Nat :=
  if (dupMaskA t idCol).any (fun b => b) then
    (firstOccur (fun k => k) (flaggedKeysA t idCol)).length
  else 0

/-- The five results of `run_check_A`. -/
structure CheckA where
  dupMask : List Bool
  cleaned : Table
  removedIds : List String
  removedCount : Nat
  groupCount : Nat
deriving DecidableEq

/-- The result `run_check_A` computes once the identifier column is present. -/
def checkA (t : Table) (idCol : String) : CheckA :=
  { dupMask := dupMaskA t idCol
    cleaned := ⟨t.cols, (keptIdxA t idCol).map (rowAt t)⟩
    removedIds :=
      firstOccur (fun s => s)
        ((removedIdxA t idCol).map (fun i => getCell t.cols (rowAt t i) idCol))
    removedCount := (removedIdxA t idCol).length
    groupCount := groupCountA t idCol }

/-- Embedding of `run_check_A`: raise when the identifier column is missing, otherwise
flag, sort stably, keep the first row of each Rule-A key group and report. -/
def run_check_A (t : Table) (idCol : String) : Except String CheckA :=
  if idCol ∈ t.cols then .ok (checkA t idCol)
  else .error ("Spalte \x27" ++ idCol ++ "\x27 fehlt.")

/-! ### Field normalizers -/

/-- Embedding of `_to_ascii_lower`: NFKD-decompose, strip combining marks, lowercase.  The
`unicodedata` steps are the identity on ASCII and are modelled as the
identity; lowercasing is ASCII `Char.toLower`. -/
def to_ascii_lower (s : String) : String := String.mk (s.data.map Char.toLower)

/-- Python `str.strip` on char lists (ASCII whitespace). -/
def trimChars (cs : List Char) : List Char :=
  ((cs.dropWhile Char.isWhitespace).reverse.dropWhile Char.isWhitespace).reverse

/-- Python `str.strip`. -/
def pyStrip (s : String) : String := String.mk (trimChars s.data)

/-- Python `str.lower` (ASCII fragment). -/
def pyLower (s : String) : String := String.mk (s.data.map Char.toLower)

/-- Embedding of `_norm_bool`: strip, lowercase, canonicalize members of the truthy and
falsy sets, leave anything else as the stripped lowercase form. -/
def norm_bool (s : String) : String :=
  let sl := pyLower (pyStrip s)
  if sl = "true" ∨ sl = "1" ∨ sl = "yes" ∨ sl = "y" ∨ sl = "wahr" then "true"
  else if sl = "false" ∨ sl = "0" ∨ sl = "no" ∨ sl = "n" ∨ sl = "falsch" then "false"
  else sl

/-- An exactly-represented decimal number `num / 10 ^ exp`, the model of the
value Python `float(t)` parses from a plain decimal literal. -/
structure DecNum where
  num : Int
  exp : Nat
deriving DecidableEq

/-- Digits to the natural number they denote. -/
def digitsToNat (ds : List Char) : Nat :=
  ds.foldl (fun n c => 10 * n + (c.toNat - 48)) 0

/-- Optional leading sign of a numeric literal. -/
def parseSign : List Char → Bool × List Char
  | '-' :: r => (true, r)
  | '+' :: r => (false, r)
  | r => (false, r)

/-- Model of Python `float(...)` on the decimal-literal fragment the program
feeds it: optional sign, digits, optional `.` and digits, at least one digit;
anything else fails (Python additionally accepts exponents, `inf`, `nan` and
underscores, which the rate strings at issue never contain). -/
def parseDec (s : String) : Option DecNum :=
  let p := parseSign s.data
  let ip := p.2.takeWhile Char.isDigit
  let rest := p.2.dropWhile Char.isDigit
  let fr : Option (List Char) :=
    match rest with
    | [] => some []
    | '.' :: fs => if fs.all Char.isDigit then some fs else none
    | _ => none
  match fr with
  | none => none
  | some fs =>
    if ip.isEmpty && fs.isEmpty then none
    else
      let m : Nat := digitsToNat ip * 10 ^ fs.length + digitsToNat fs
      some ⟨if p.1 then -(m : Int) else (m : Int), fs.length⟩

/-- Zero-pad a digit string to 6 places. -/
def pad6 (s : String) : String := String.mk (List.replicate (6 - s.length) '0') ++ s

/-- The value `m / 10 ^ e` scaled to 6 decimals and rounded to the nearest integer
(half up), as `"%.6f"` rounds the parsed value. -/
def round6 (m : Nat) (e : Nat) : Nat :=
  if e ≤ 6 then m * 10 ^ (6 - e)
  else (2 * m + 10 ^ (e - 6)) / (2 * 10 ^ (e - 6))

/-- Model of the Python fixed-6-decimal formatting on the exactly-parsed value. -/
def fmt6 (d : DecNum) : String :=
  let n := round6 d.num.natAbs d.exp
  (if d.num < 0 then "-" else "") ++ toString (n / 1000000) ++ "." ++ pad6 (toString (n % 1000000))

/-- Embedding of `replace("%", "")` in `_norm_rate` (removes every percent sign). -/
def remPercent (s : String) : String :=
  String.mk (s.data.filter (fun c => decide (c ≠ '%')))

/-- Embedding of `replace(",", ".")` in `_norm_rate`. -/
def commaToDot (s : String) : String :=
  String.mk (s.data.map (fun c => if c = ',' then '.' else c))

/-- The preprocessed string `_norm_rate` hands to `float`. -/
def preRate (s : String) : String := commaToDot (remPercent (pyStrip s))

/-- The `val > 1.0` test of `_norm_rate`: `num / 10 ^ exp > 1`. -/
def gtOneB (d : DecNum) : Bool := decide ((10 : Int) ^ d.exp < d.num)

/-- Division `val / 100.0` on the exact decimal value. -/
def div100 (d : DecNum) : DecNum := ⟨d.num, d.exp + 2⟩

/-- Embedding of `_norm_rate`: strip, drop percent signs, decimal comma to point, parse as
a number; values above 1 are interpreted as percentages and divided by 100;
the result is formatted to 6 decimals.  When parsing fails, fall back to the
diacritic-stripped lowercased trimmed input. -/
def norm_rate (s : String) : String :=
  match parseDec (preRate s) with
  | some d => if gtOneB d then fmt6 (div100 d) else fmt6 d
  | none => pyStrip (to_ascii_lower s)

/-- Embedding of the paren-removal regex substitution: replace every complete parenthesized
group (no closing paren inside) by one space; an unclosed `(` stays.  The
accumulator holds the reversed chars read since an open `(`. -/
def removeParensAux : Option (List Char) → List Char → List Char
  | none, [] => []
  | some buf, [] => '(' :: buf.reverse
  | none, c :: rest =>
    if c = '(' then removeParensAux (some []) rest
    else c :: removeParensAux none rest
  | some buf, c :: rest =>
    if c = ')' then ' ' :: removeParensAux none rest
    else removeParensAux (some (c :: buf)) rest

/-- Remove parenthesized substrings, as `_norm_name` does. -/
def removeParens (cs : List Char) : List Char := removeParensAux none cs

/-- Replace en dash, em dash and hyphen by spaces. -/
def dashToSpace (cs : List Char) : List Char :=
  cs.map (fun c => if c = '–' ∨ c = '—' ∨ c = '-' then ' ' else c)

/-- Char class `[a-z0-9\s\.,]` kept by `_norm_name` (`\s` at ASCII level). -/
def keepNameChar (c : Char) : Bool :=
  (decide ('a' ≤ c) && decide (c ≤ 'z')) || c.isDigit || c.isWhitespace
    || decide (c = '.') || decide (c = ',')

/-- Embedding of the char-class regex substitution keeping only `[a-z0-9\s.,]`. -/
def stripSpecial (cs : List Char) : List Char :=
  cs.map (fun c => if keepNameChar c then c else ' ')

/-- Regex word char `\w` (ASCII fragment). -/
def isWordChar (c : Char) : Bool := c.isAlpha || c.isDigit || decide (c = '_')

/-- Is there a `\b` boundary before these chars, for a word ending in a word
char: yes at end of string or before a non-word char. -/
def boundaryAfter : List Char → Bool
  | [] => true
  | c :: _ => !isWordChar c

/-- One left-to-right pass of the boundary-delimited regex substitution for a word `w`
that starts and ends with a word char (all stop words do).  `prevWord` says
whether the previously scanned char was a word char.  The fuel is the input
length plus one; every step consumes at least one char, so it never runs out. -/
def replaceWordFuel (w : List Char) : Nat → Bool → List Char → List Char
  | 0, _, s => s
  | _ + 1, _, [] => []
  | fuel + 1, prevWord, c :: rest =>
    if !prevWord && decide (0 < w.length) && decide ((c :: rest).take w.length = w)
        && boundaryAfter ((c :: rest).drop w.length) then
      ' ' :: replaceWordFuel w fuel (isWordChar (w.getLastD ' ')) ((c :: rest).drop w.length)
    else c :: replaceWordFuel w fuel (isWordChar c) rest

/-- Embedding of the whole-word regex substitution removing one stop word. -/
def replaceWord (w : String) (cs : List Char) : List Char :=
  replaceWordFuel w.data (cs.length + 1) false cs

/-- The set `_REM_WORDS`, as a list: Python iterates the set in an unspecified hash
order, but the stop words cannot overlap in any input reaching this step, so
every order yields the same result; a fixed order is used here. -/
def REM_WORDS : List String := ["services", "service", "fa/ooe", "fa\\ooe", "fa ooe"]

/-- The stop-word removal loop of `_norm_name`. -/
def removeStopWords (cs : List Char) : List Char :=
  REM_WORDS.foldl (fun s w => replaceWord w s) cs

/-- Embedding of `replace(",", ".")` on char lists. -/
def commaToDotL (cs : List Char) : List Char :=
  cs.map (fun c => if c = ',' then '.' else c)

/-- Embedding of the whitespace regex substitution: collapse every whitespace run to one space. -/
def collapseWs : List Char → List Char
  | [] => []
  | [c] => if c.isWhitespace then [' '] else [c]
  | c :: c2 :: rest =>
    if c.isWhitespace && c2.isWhitespace then collapseWs (c2 :: rest)
    else (if c.isWhitespace then ' ' else c) :: collapseWs (c2 :: rest)

/-- Embedding of `_norm_name`: ascii-lowercase, drop parenthesized parts, dashes to
spaces, keep only `[a-z0-9\s.,]`, remove stop words, decimal comma to point,
collapse whitespace, trim.  (The `isinstance` guard of the source is a no-op
here: every cell is already a string.) -/
def norm_name (s : String) : String :=
  pyStrip (String.mk (collapseWs (commaToDotL (removeStopWords
    (stripSpecial (dashToSpace (removeParens ((to_ascii_lower s).data))))))))

/-- Embedding of `_norm_text`: ascii-lowercase, collapse whitespace, trim. -/
def norm_text (s : String) : String :=
  pyStrip (String.mk (collapseWs ((to_ascii_lower s).data)))

/-! ### run_check_B -/

/-- The fixed core-field list of Rule B. -/
def CORE_FIELDS : List String :=
  ["taxExemption", "name", "recipientCountry", "category", "vendorCountry", "itemsTaxRate"]

/-- The core fields absent from the table. -/
def coreMissing (t : Table) : List String :=
  CORE_FIELDS.filter (fun c => decide (c ∉ t.cols))

/-- Normalized core view of one row, in core-field order. -/
def coreKey (cols : List String) (r : Row) : Row :=
  [norm_bool (getCell cols r ("taxExemption")),
   norm_name (getCell cols r ("name")),
   norm_text (getCell cols r ("recipientCountry")),
   norm_text (getCell cols r ("category")),
   norm_text (getCell cols r ("vendorCountry")),
   norm_rate (getCell cols r ("itemsTaxRate"))]

/-- The normalized view table built by `normalize_core_view`. -/
def coreView (t : Table) : Table := ⟨CORE_FIELDS, t.rows.map (coreKey t.cols)⟩

/-- Python `", ".join(...)`. -/
def joinComma : List String → String
  | [] => ""
  | [c] => c
  | c :: c2 :: rest => c ++ ", " ++ joinComma (c2 :: rest)

/-- Embedding of `normalize_core_view`: fail fast, naming every missing core column,
otherwise build the normalized view of the core fields. -/
def normalize_core_view (t : Table) : Except String Table :=
  if coreMissing t = [] then .ok (coreView t)
  else .error ("Folgende Spalten fehlen für Prüfung B: " ++ joinComma (coreMissing t))

/-- The results of `run_check_B` the claims are about: the membership flags
and the identifier list (the sorted group view is presentation only). -/
structure CheckB where
  dupMask : List Bool
  externalIds : List String
deriving DecidableEq

/-- The normalized core keys of all rows, in input order. -/
def keysB (t : Table) : List Row := (coreView t).rows

/-- Embedding of `norm.duplicated(subset=CORE_FIELDS, keep=False)`: flag a row when its
normalized core key occurs in more than one row. -/
def dupMaskB (t : Table) : List Bool :=
  (keysB t).map (fun k => decide (2 ≤ (keysB t).count k))

/-- The result `run_check_B` computes once the core view exists. -/
def checkB (t : Table) (idCol : String) : CheckB :=
  { dupMask := dupMaskB t
    externalIds :=
      firstOccur (fun s => s)
        (((dupMaskB t).zip t.rows).filterMap
          (fun p => if p.1 then some (getCell t.cols p.2 idCol) else none)) }

/-- Embedding of `run_check_B`: normalize the core view (failing when core columns are
missing), flag the rows whose normalized core key occurs more than once, and
list the distinct identifiers of the flagged rows. -/
def run_check_B (t : Table) (idCol : String) : Except String CheckB :=
  match normalize_core_view t with
  | .ok _ => .ok (checkB t idCol)
  | .error e => .error e

/-! ### Bridging the computable comparators to the Mathlib orders -/

theorem charsLtB_iff_lex : ∀ cs ds : List Char, charsLtB cs ds = true ↔ List.Lex (· < ·) cs ds
  | [], [] => by
    simp only [charsLtB]
    exact ⟨fun h => by simp at h, fun h => by cases h⟩
  | [], _ :: _ => by
    simp only [charsLtB]
    exact ⟨fun _ => List.Lex.nil, fun _ => by trivial⟩
  | _ :: _, [] => by
    simp only [charsLtB]
    exact ⟨fun h => by simp at h, fun h => by cases h⟩
  | a :: as, b :: bs => by
    simp only [charsLtB]
    rcases lt_trichotomy a b with h | h | h
    · rw [if_pos h]
      exact ⟨fun _ => List.Lex.rel h, fun _ => by trivial⟩
    · subst h
      rw [if_neg (lt_irrefl a), if_neg (lt_irrefl a)]
      constructor
      · intro hlt
        exact List.Lex.cons ((charsLtB_iff_lex as bs).mp hlt)
      · intro hlex
        cases hlex with
        | rel h => exact absurd h (lt_irrefl a)
        | cons h => exact (charsLtB_iff_lex as bs).mpr h
    · rw [if_neg (lt_asymm h), if_pos h]
      constructor
      · intro hf
        exact absurd hf (by simp)
      · intro hlex
        cases hlex with
        | rel hr => exact absurd hr (lt_asymm h)
        | cons hc => exact absurd h (lt_irrefl _)

theorem strLtB_iff {a b : String} : strLtB a b = true ↔ a < b :=
  (charsLtB_iff_lex a.data b.data).trans String.lt_iff_toList_lt.symm

theorem strLtB_irrefl (a : String) : strLtB a a = false := by
  rw [Bool.eq_false_iff]
  intro h
  exact lt_irrefl a (strLtB_iff.mp h)

theorem strLtB_trans {a b c : String} (h1 : strLtB a b = true) (h2 : strLtB b c = true) :
    strLtB a c = true :=
  strLtB_iff.mpr (lt_trans (strLtB_iff.mp h1) (strLtB_iff.mp h2))

theorem strLtB_eq_of_not {a b : String} (h1 : strLtB a b = false) (h2 : strLtB b a = false) :
    a = b := by
  rcases lt_trichotomy a b with h | h | h
  · exact absurd (strLtB_iff.mpr h) (by simp [h1])
  · exact h
  · exact absurd (strLtB_iff.mpr h) (by simp [h2])

theorem lexLt_irrefl : ∀ x : List String, lexLt x x = false
  | [] => rfl
  | a :: as => by
    simp only [lexLt]
    rw [if_neg (by simp [strLtB_irrefl]), if_neg (by simp [strLtB_irrefl])]
    exact lexLt_irrefl as

theorem lexLt_trans : ∀ {x y z : List String}, lexLt x y = true → lexLt y z = true →
    lexLt x z = true
  | [], [], _, h1, _ => by simp [lexLt] at h1
  | [], _ :: _, [], _, h2 => by simp [lexLt] at h2
  | [], _ :: _, _ :: _, _, _ => rfl
  | _ :: _, [], _, h1, _ => by simp [lexLt] at h1
  | _ :: _, _ :: _, [], _, h2 => by simp [lexLt] at h2
  | a :: as, b :: bs, c :: cs, h1, h2 => by
    simp only [lexLt] at h1 h2 ⊢
    rcases hab : strLtB a b with _ | _ <;> rcases hbc : strLtB b c with _ | _
    · rw [hab] at h1
      rw [hbc] at h2
      rcases hba : strLtB b a with _ | _ <;> rcases hcb : strLtB c b with _ | _
      · have hab' := strLtB_eq_of_not hab hba
        have hbc' := strLtB_eq_of_not hbc hcb
        subst hab'
        subst hbc'
        rw [if_neg (by simp [hab]), if_neg (by simp [hab])]
        rw [if_neg (by simp [hab]), if_neg (by simp [hab])] at h1 h2
        exact lexLt_trans h1 h2
      · rw [if_neg (by simp [hbc]), if_pos hcb] at h2
        exact absurd h2 (by simp)
      · rw [if_neg (by simp [hab]), if_pos hba] at h1
        exact absurd h1 (by simp)
      · rw [if_neg (by simp [hab]), if_pos hba] at h1
        exact absurd h1 (by simp)
    · rw [hbc] at h2
      have hac : strLtB a c = true := by
        have hab' := strLtB_eq_of_not hab (by
          rcases hba : strLtB b a with _ | _
          · rfl
          · rw [hab, if_pos hba] at h1
            exact absurd h1 (by simp))
        subst hab'
        exact hbc
      rw [if_pos hac]
    · rw [hab] at h1
      have hcb' : strLtB c b = false := by
        rcases hcb : strLtB c b with _ | _
        · rfl
        · rw [hbc, if_pos hcb] at h2
          exact absurd h2 (by simp)
      have hbc' := strLtB_eq_of_not hbc hcb'
      subst hbc'
      rw [if_pos hab]
    · rw [if_pos (strLtB_trans hab hbc)]

theorem lexLt_eq_of_not : ∀ {x y : List String}, lexLt x y = false → lexLt y x = false →
    x = y
  | [], [], _, _ => rfl
  | [], _ :: _, h1, _ => by simp [lexLt] at h1
  | _ :: _, [], _, h2 => by simp [lexLt] at h2
  | a :: as, b :: bs, h1, h2 => by
    simp only [lexLt] at h1 h2
    have hab : strLtB a b = false := by
      rcases h : strLtB a b with _ | _
      · rfl
      · rw [if_pos h] at h1
        exact absurd h1 (by simp)
    have hba : strLtB b a = false := by
      rcases h : strLtB b a with _ | _
      · rfl
      · rw [if_pos h] at h2
        exact absurd h2 (by simp)
    have he := strLtB_eq_of_not hab hba
    subst he
    rw [if_neg (by simp [hab]), if_neg (by simp [hab])] at h1 h2
    rw [lexLt_eq_of_not h1 h2]

theorem lexLt_asymm {x y : List String} (h : lexLt x y = true) : lexLt y x = false := by
  rcases h2 : lexLt y x with _ | _
  · rfl
  · have := lexLt_trans h h2
    rw [lexLt_irrefl x] at this
    exact absurd this (by simp)

theorem lexLt_append_singleton : ∀ (c : List String) {x y : String},
    lexLt (c ++ [x]) (c ++ [y]) = true → x < y
  | [], x, y, h => by
    simp only [List.nil_append, lexLt] at h
    rcases hxy : strLtB x y with _ | _
    · rw [if_neg (by simp [hxy])] at h
      rcases hyx : strLtB y x with _ | _
      · rw [if_neg (by simp [hyx])] at h
        exact absurd h (by simp [lexLt])
      · rw [if_pos hyx] at h
        exact absurd h (by simp)
    · exact strLtB_iff.mp hxy
  | a :: c, x, y, h => by
    simp only [List.cons_append, lexLt] at h
    rw [if_neg (by simp [strLtB_irrefl]), if_neg (by simp [strLtB_irrefl])] at h
    exact lexLt_append_singleton c h

/-! ### Order facts for the stable-sort relation -/

theorem keyIdxLe_refl (k : Nat → List String) (i : Nat) : keyIdxLe k i i :=
  Or.inr ⟨rfl, le_refl i⟩

instance keyIdxLe.isTotal (k : Nat → List String) : IsTotal Nat (keyIdxLe k) := by
  constructor
  intro i j
  rcases h1 : lexLt (k i) (k j) with _ | _
  · rcases h2 : lexLt (k j) (k i) with _ | _
    · have he := lexLt_eq_of_not h1 h2
      rcases Nat.le_total i j with h | h
      · exact Or.inl (Or.inr ⟨he, h⟩)
      · exact Or.inr (Or.inr ⟨he.symm, h⟩)
    · exact Or.inr (Or.inl h2)
  · exact Or.inl (Or.inl h1)

instance keyIdxLe.isTrans (k : Nat → List String) : IsTrans Nat (keyIdxLe k) := by
  constructor
  intro i j m h1 h2
  rcases h1 with h1 | ⟨he1, hle1⟩
  · rcases h2 with h2 | ⟨he2, _⟩
    · exact Or.inl (lexLt_trans h1 h2)
    · exact Or.inl (he2 ▸ h1)
  · rcases h2 with h2 | ⟨he2, hle2⟩
    · exact Or.inl (he1 ▸ h2)
    · exact Or.inr ⟨he1.trans he2, le_trans hle1 hle2⟩

theorem keyIdxLe_antisymm {k : Nat → List String} {i j : Nat}
    (h1 : keyIdxLe k i j) (h2 : keyIdxLe k j i) : i = j := by
  rcases h1 with h1 | ⟨he1, hle1⟩
  · rcases h2 with h2 | ⟨he2, _⟩
    · have := lexLt_trans h1 h2
      rw [lexLt_irrefl] at this
      exact absurd this (by simp)
    · rw [he2] at h1
      rw [lexLt_irrefl] at h1
      exact absurd h1 (by simp)
  · rcases h2 with h2 | ⟨_, hle2⟩
    · rw [he1] at h2
      rw [lexLt_irrefl] at h2
      exact absurd h2 (by simp)
    · exact le_antisymm hle1 hle2

/-! ### Keep-first elimination: theory -/

theorem firstOccurAux_sublist {α κ : Type} [DecidableEq κ] (f : α → κ) :
    ∀ (l : List α) (seen : List κ), (firstOccurAux f seen l).Sublist l
  | [], _ => List.Sublist.slnil
  | a :: as, seen => by
    simp only [firstOccurAux]
    by_cases h : f a ∈ seen
    · rw [if_pos h]
      exact (firstOccurAux_sublist f as seen).cons a
    · rw [if_neg h]
      exact (firstOccurAux_sublist f as (f a :: seen)).cons₂ a

theorem mem_of_mem_firstOccurAux {α κ : Type} [DecidableEq κ] {f : α → κ} {l : List α}
    {seen : List κ} {x : α} (h : x ∈ firstOccurAux f seen l) : x ∈ l :=
  (firstOccurAux_sublist f l seen).subset h

theorem firstOccurAux_map_nodup {α κ : Type} [DecidableEq κ] (f : α → κ) :
    ∀ (l : List α) (seen : List κ),
      ((firstOccurAux f seen l).map f).Nodup ∧ ∀ k ∈ (firstOccurAux f seen l).map f, k ∉ seen
  | [], _ => ⟨List.nodup_nil, by simp [firstOccurAux]⟩
  | a :: as, seen => by
    simp only [firstOccurAux]
    by_cases h : f a ∈ seen
    · rw [if_pos h]
      exact firstOccurAux_map_nodup f as seen
    · rw [if_neg h]
      obtain ⟨ih1, ih2⟩ := firstOccurAux_map_nodup f as (f a :: seen)
      refine ⟨?_, ?_⟩
      · simp only [List.map_cons, List.nodup_cons]
        exact ⟨fun hmem => (ih2 _ hmem) (List.mem_cons_self _ _), ih1⟩
      · intro k hk
        simp only [List.map_cons, List.mem_cons] at hk
        rcases hk with hk | hk
        · subst hk
          exact h
        · exact fun hks => (ih2 k hk) (List.mem_cons_of_mem _ hks)

theorem firstOccurAux_covers {α κ : Type} [DecidableEq κ] (f : α → κ) :
    ∀ (l : List α) (seen : List κ) (y : α), y ∈ l → f y ∉ seen →
      ∃ x ∈ firstOccurAux f seen l, f x = f y
  | [], _, y, hy, _ => absurd hy (List.not_mem_nil y)
  | a :: as, seen, y, hy, hns => by
    simp only [firstOccurAux]
    by_cases h : f a ∈ seen
    · rw [if_pos h]
      rcases List.mem_cons.mp hy with rfl | hy2
      · exact absurd h hns
      · exact firstOccurAux_covers f as seen y hy2 hns
    · rw [if_neg h]
      by_cases hfy : f y = f a
      · exact ⟨a, List.mem_cons_self a _, hfy.symm⟩
      · rcases List.mem_cons.mp hy with rfl | hy2
        · exact absurd rfl hfy
        · obtain ⟨x, hx1, hx2⟩ := firstOccurAux_covers f as (f a :: seen) y hy2
            (fun hc => (List.mem_cons.mp hc).elim hfy hns)
          exact ⟨x, List.mem_cons_of_mem _ hx1, hx2⟩

theorem firstOccurAux_eq_self {α κ : Type} [DecidableEq κ] (f : α → κ) :
    ∀ (l : List α) (seen : List κ), (l.map f).Nodup → (∀ k ∈ l.map f, k ∉ seen) →
      firstOccurAux f seen l = l
  | [], _, _, _ => rfl
  | a :: as, seen, hnd, hdisj => by
    have hnd2 : (f a ∉ as.map f) ∧ (as.map f).Nodup :=
      List.nodup_cons.mp (by simpa using hnd)
    simp only [firstOccurAux]
    rw [if_neg (hdisj (f a) (by simp))]
    congr 1
    apply firstOccurAux_eq_self f as (f a :: seen) hnd2.2
    intro k hk
    simp only [List.mem_cons]
    rintro (h1 | h1)
    · subst h1
      exact hnd2.1 hk
    · exact hdisj k (by simp [hk]) h1

theorem mem_firstOccurAux_iff {α κ : Type} [DecidableEq κ] (f : α → κ) (R : α → α → Prop)
    (hrefl : ∀ a, R a a) (hanti : ∀ a b, R a b → R b a → a = b) :
    ∀ (l : List α) (seen : List κ), l.Pairwise R → ∀ x,
      (x ∈ firstOccurAux f seen l ↔ x ∈ l ∧ f x ∉ seen ∧ ∀ y ∈ l, f y = f x → R x y)
  | [], seen, _, x => by simp [firstOccurAux]
  | a :: as, seen, hpw, x => by
    obtain ⟨ha, hpw2⟩ := List.pairwise_cons.mp hpw
    simp only [firstOccurAux]
    by_cases h : f a ∈ seen
    · rw [if_pos h]
      rw [mem_firstOccurAux_iff f R hrefl hanti as seen hpw2 x]
      constructor
      · rintro ⟨hx, hns, hmin⟩
        refine ⟨List.mem_cons_of_mem _ hx, hns, ?_⟩
        intro y hy hfy
        rcases List.mem_cons.mp hy with rfl | hy2
        · exact absurd (hfy ▸ h) hns
        · exact hmin y hy2 hfy
      · rintro ⟨hx, hns, hmin⟩
        rcases List.mem_cons.mp hx with rfl | hx2
        · exact absurd h hns
        · exact ⟨hx2, hns, fun y hy hfy => hmin y (List.mem_cons_of_mem _ hy) hfy⟩
    · rw [if_neg h]
      rw [List.mem_cons]
      constructor
      · rintro (rfl | hx)
        · refine ⟨List.mem_cons_self _ _, h, ?_⟩
          intro y hy hfy
          rcases List.mem_cons.mp hy with rfl | hy2
          · exact hrefl _
          · exact ha y hy2
        · rw [mem_firstOccurAux_iff f R hrefl hanti as (f a :: seen) hpw2 x] at hx
          obtain ⟨hx1, hx2, hx3⟩ := hx
          have hfxa : f x ≠ f a := fun hc => hx2 (by simp [hc])
          have hns : f x ∉ seen := fun hc => hx2 (by simp [hc])
          refine ⟨List.mem_cons_of_mem _ hx1, hns, ?_⟩
          intro y hy hfy
          rcases List.mem_cons.mp hy with rfl | hy2
          · exact absurd hfy (fun hc => hfxa hc.symm)
          · exact hx3 y hy2 hfy
      · rintro ⟨hx, hns, hmin⟩
        rcases List.mem_cons.mp hx with rfl | hx2
        · exact Or.inl rfl
        · by_cases hxa : x = a
          · exact Or.inl hxa
          · right
            rw [mem_firstOccurAux_iff f R hrefl hanti as (f a :: seen) hpw2 x]
            refine ⟨hx2, ?_, fun y hy hfy => hmin y (List.mem_cons_of_mem _ hy) hfy⟩
            intro hc
            rcases List.mem_cons.mp hc with hc2 | hc2
            · exact hxa (hanti x a (hmin a (List.mem_cons_self _ _) hc2.symm) (ha x hx2))
            · exact hns hc2

theorem firstOccur_sublist {α κ : Type} [DecidableEq κ] (f : α → κ) (l : List α) :
    (firstOccur f l).Sublist l :=
  firstOccurAux_sublist f l []

theorem firstOccur_map_nodup {α κ : Type} [DecidableEq κ] (f : α → κ) (l : List α) :
    ((firstOccur f l).map f).Nodup :=
  (firstOccurAux_map_nodup f l []).1

theorem firstOccur_covers {α κ : Type} [DecidableEq κ] (f : α → κ) {l : List α} {y : α}
    (hy : y ∈ l) : ∃ x ∈ firstOccur f l, f x = f y :=
  firstOccurAux_covers f l [] y hy (List.not_mem_nil _)

theorem firstOccur_eq_self {α κ : Type} [DecidableEq κ] (f : α → κ) {l : List α}
    (hnd : (l.map f).Nodup) : firstOccur f l = l :=
  firstOccurAux_eq_self f l [] hnd (by simp)

theorem mem_firstOccur_iff {α κ : Type} [DecidableEq κ] (f : α → κ) (R : α → α → Prop)
    (hrefl : ∀ a, R a a) (hanti : ∀ a b, R a b → R b a → a = b) {l : List α}
    (hpw : l.Pairwise R) (x : α) :
    x ∈ firstOccur f l ↔ x ∈ l ∧ ∀ y ∈ l, f y = f x → R x y := by
  rw [firstOccur, mem_firstOccurAux_iff f R hrefl hanti l [] hpw x]
  simp

theorem mem_firstOccur_id {α : Type} [DecidableEq α] {l : List α} {x : α} :
    x ∈ firstOccur (fun s => s) l ↔ x ∈ l := by
  constructor
  · exact fun h => (firstOccur_sublist _ l).subset h
  · intro h
    obtain ⟨y, hy1, hy2⟩ := firstOccur_covers (fun s => s) h
    exact hy2 ▸ hy1

theorem firstOccur_id_nodup {α : Type} [DecidableEq α] (l : List α) :
    (firstOccur (fun s => s) l).Nodup := by
  have := firstOccur_map_nodup (fun s => s) l
  simpa using this

/-! ### The stable sort of run_check_A -/

theorem sortedIdxA_perm (t : Table) (idCol : String) :
    (sortedIdxA t idCol).Perm (List.range t.rows.length) :=
  List.perm_insertionSort _ _

theorem sortedIdxA_pairwise (t : Table) (idCol : String) :
    (sortedIdxA t idCol).Pairwise (keyIdxLe (sortKeyAt t idCol)) :=
  List.sorted_insertionSort _ _

theorem mem_sortedIdxA {t : Table} {idCol : String} {i : Nat} :
    i ∈ sortedIdxA t idCol ↔ i < t.rows.length := by
  rw [(sortedIdxA_perm t idCol).mem_iff, List.mem_range]

/-- The survivor characterization: a row index is kept by `run_check_A`
exactly when, among the rows of its Rule-A key group, it is least in the
(sort key, original position) order — i.e. it has the smallest sort key, with
the earliest input position among exact ties. -/
theorem mem_keptIdxA {t : Table} {idCol : String} {i : Nat} :
    i ∈ keptIdxA t idCol ↔ i < t.rows.length ∧
      ∀ j < t.rows.length, keyAt t idCol j = keyAt t idCol i →
        keyIdxLe (sortKeyAt t idCol) i j := by
  rw [keptIdxA, mem_firstOccur_iff (keyAt t idCol) (keyIdxLe (sortKeyAt t idCol))
      (keyIdxLe_refl _) (fun a b h1 h2 => keyIdxLe_antisymm h1 h2) (sortedIdxA_pairwise t idCol) i]
  constructor
  · rintro ⟨h1, h2⟩
    exact ⟨mem_sortedIdxA.mp h1, fun j hj hk => h2 j (mem_sortedIdxA.mpr hj) hk⟩
  · rintro ⟨h1, h2⟩
    exact ⟨mem_sortedIdxA.mpr h1, fun j hj hk => h2 j (mem_sortedIdxA.mp hj) hk⟩

/-! ### Shared facts about run_check_A -/

theorem run_check_A_ok {t : Table} {idCol : String} (h : idCol ∈ t.cols) :
    run_check_A t idCol = .ok (checkA t idCol) := by
  simp [run_check_A, h]

/-! ### Claim C1 -/

/-- The three-row table of the C1 example: one Rule-A group with identifiers
007, 10, 2. -/
def tblA3 : Table := ⟨["externalId", "v"], [["007", "x"], ["10", "x"], ["2", "x"]]⟩

/-- C1 is false on the code: `run_check_A` sorts identifiers as plain
strings, so in the group with identifiers 007, 10, 2 the survivor is "007"
(the lexicographically smallest string), not "2" as numeric-aware ordering
would choose. -/
theorem claim_C1_counterexample :
    run_check_A tblA3 "externalId" = .ok (checkA tblA3 "externalId") ∧
    (checkA tblA3 "externalId").cleaned.rows.map (fun r => getCell tblA3.cols r ("externalId"))
      = ["007"] ∧
    ("007" : String) ≠ "2" :=
  ⟨rfl, by decide, by decide⟩

/-- C1 (amended): within each Rule-A equivalence group the survivor chosen by
`run_check_A` is a row whose raw `externalId` string is smallest under plain
lexicographic string comparison — no identifier is ever parsed as a number —
so the group with identifiers 007, 10, 2 has survivor "007". -/
theorem claim_C1 (t : Table) (idCol : String) (h : idCol ∈ t.cols) (r : Row)
    (hr : r ∈ (checkA t idCol).cleaned.rows) (j : Nat) (hj : j < t.rows.length)
    (hkey : rowKeyA t.cols idCol (rowAt t j) = rowKeyA t.cols idCol r) :
    run_check_A t idCol = .ok (checkA t idCol) ∧
    getCell t.cols r idCol ≤ getCell t.cols (rowAt t j) idCol := by
  refine ⟨run_check_A_ok h, ?_⟩
  obtain ⟨i, hi, hri⟩ := List.mem_map.mp hr
  subst hri
  obtain ⟨hin, hmin⟩ := mem_keptIdxA.mp hi
  have hkij : keyAt t idCol j = keyAt t idCol i := hkey
  have hle := hmin j hj hkij
  have heq2 : sortKeyAt t idCol j
      = rowKeyA t.cols idCol (rowAt t i) ++ [getCell t.cols (rowAt t j) idCol] := by
    rw [sortKeyAt, sortKeyRow, hkey]
  rcases hle with hlt | ⟨heq, _⟩
  · rw [heq2] at hlt
    rw [sortKeyAt, sortKeyRow] at hlt
    exact le_of_lt (lexLt_append_singleton _ hlt)
  · rw [heq2, sortKeyAt, sortKeyRow] at heq
    have := List.append_cancel_left heq
    simp only [List.cons.injEq, and_true] at this
    exact le_of_eq this

/-- Witness for C1 (amended) at the 007/10/2 table. -/
theorem claim_C1_witness :
    run_check_A tblA3 "externalId" = .ok (checkA tblA3 "externalId") ∧
    getCell tblA3.cols ["007", "x"] "externalId"
      ≤ getCell tblA3.cols (rowAt tblA3 2) "externalId" :=
  claim_C1 tblA3 "externalId" (by decide) ["007", "x"] (by decide) 2 (by decide) (by decide)

/-! ### Claim C4 -/

/-- C4: when two rows are exactly equal (same Rule-A key fields and same
identifier string), the later one is never the survivor; the group has a
survivor; and among fully identical rows the retained one is the earliest in
input order.  The selection is a pure function of the input, hence
deterministic. -/
theorem claim_C4 (t : Table) (idCol : String) (h : idCol ∈ t.cols) (i j : Nat)
    (hij : i < j) (hj : j < t.rows.length) (heq : rowAt t i = rowAt t j) :
    run_check_A t idCol = .ok (checkA t idCol) ∧
    j ∉ keptIdxA t idCol ∧
    (∃ m ∈ keptIdxA t idCol, keyAt t idCol m = keyAt t idCol i) ∧
    (∀ m ∈ keptIdxA t idCol, rowAt t m = rowAt t i →
      ∀ p, p < t.rows.length → rowAt t p = rowAt t i → m ≤ p) := by
  have hKij : sortKeyAt t idCol i = sortKeyAt t idCol j := by
    rw [sortKeyAt, sortKeyAt, heq]
  refine ⟨run_check_A_ok h, ?_, ?_, ?_⟩
  · intro hmem
    obtain ⟨_, hmin⟩ := mem_keptIdxA.mp hmem
    have hcontra := hmin i (hij.trans hj) (by rw [keyAt, keyAt, heq])
    rcases hcontra with hlt | ⟨_, hle⟩
    · rw [hKij, lexLt_irrefl] at hlt
      exact absurd hlt (by simp)
    · omega
  · exact firstOccur_covers (keyAt t idCol) (mem_sortedIdxA.mpr (hij.trans hj))
  · intro m hm hrm p hp hrp
    obtain ⟨_, hmin⟩ := mem_keptIdxA.mp hm
    have h1 := hmin p hp (by rw [keyAt, keyAt, hrp, hrm])
    rcases h1 with hlt | ⟨_, hle⟩
    · have hmp : sortKeyAt t idCol m = sortKeyAt t idCol p := by
        rw [sortKeyAt, sortKeyAt, hrm, hrp]
      rw [hmp, lexLt_irrefl] at hlt
      exact absurd hlt (by simp)
    · exact hle

/-- The two-identical-row table of the C4 stability example. -/
def tblStab : Table := ⟨["externalId", "v"], [["a", "x"], ["a", "x"]]⟩

/-- Witness for C4 at a table with two fully identical rows. -/
theorem claim_C4_witness :
    run_check_A tblStab "externalId" = .ok (checkA tblStab "externalId") ∧
    1 ∉ keptIdxA tblStab "externalId" ∧
    (∃ m ∈ keptIdxA tblStab "externalId",
      keyAt tblStab "externalId" m = keyAt tblStab "externalId" 0) ∧
    (∀ m ∈ keptIdxA tblStab "externalId", rowAt tblStab m = rowAt tblStab 0 →
      ∀ p, p < tblStab.rows.length → rowAt tblStab p = rowAt tblStab 0 → m ≤ p) :=
  claim_C4 tblStab "externalId" (by decide) 0 1 (by decide) (by decide) (by decide)

/-! ### Claim C10 -/

/-- C10: the cleaned table is emitted in ascending lexicographic order of
(comparison-column values in table column order, then the raw identifier
string) — the order left by the sort — not in original input row order. -/
theorem claim_C10 (t : Table) (idCol : String) (h : idCol ∈ t.cols) :
    run_check_A t idCol = .ok (checkA t idCol) ∧
    (checkA t idCol).cleaned.rows.Pairwise (fun r1 r2 =>
      lexLt (sortKeyRow t.cols idCol r1) (sortKeyRow t.cols idCol r2) = true ∨
      sortKeyRow t.cols idCol r1 = sortKeyRow t.cols idCol r2) := by
  refine ⟨run_check_A_ok h, ?_⟩
  have hpw : (keptIdxA t idCol).Pairwise (keyIdxLe (sortKeyAt t idCol)) :=
    List.Pairwise.sublist (firstOccur_sublist _ _) (sortedIdxA_pairwise t idCol)
  show ((keptIdxA t idCol).map (rowAt t)).Pairwise _
  rw [List.pairwise_map]
  refine hpw.imp ?_
  intro i j hij
  rcases hij with hlt | ⟨heq, _⟩
  · exact Or.inl hlt
  · exact Or.inr heq

/-- A table whose cleaned output leaves input order. -/
def tblOrd : Table := ⟨["externalId", "v"], [["2", "b"], ["1", "a"]]⟩

/-- Witness for C10. -/
theorem claim_C10_witness :
    run_check_A tblOrd "externalId" = .ok (checkA tblOrd "externalId") ∧
    (checkA tblOrd "externalId").cleaned.rows.Pairwise (fun r1 r2 =>
      lexLt (sortKeyRow tblOrd.cols "externalId" r1) (sortKeyRow tblOrd.cols "externalId" r2)
        = true ∨
      sortKeyRow tblOrd.cols "externalId" r1 = sortKeyRow tblOrd.cols "externalId" r2) :=
  claim_C10 tblOrd "externalId" (by decide)

/-! ### Claim C7 -/

theorem range_map_getD {α : Type} (l : List α) (d : α) :
    (List.range l.length).map (fun i => l.getD i d) = l := by
  apply List.ext_getElem
  · simp
  · intro i h1 h2
    simp only [List.getElem_map, List.getElem_range]
    exact List.getD_eq_getElem l d h2

theorem sorted_keys_perm (t : Table) (idCol : String) :
    ((sortedIdxA t idCol).map (keyAt t idCol)).Perm (t.rows.map (rowKeyA t.cols idCol)) := by
  have hp := (sortedIdxA_perm t idCol).map (keyAt t idCol)
  have hr : (List.range t.rows.length).map (keyAt t idCol)
      = t.rows.map (rowKeyA t.cols idCol) := by
    calc (List.range t.rows.length).map (keyAt t idCol)
        = ((List.range t.rows.length).map (fun i => t.rows.getD i [])).map
            (rowKeyA t.cols idCol) := by rw [List.map_map]; rfl
      _ = t.rows.map (rowKeyA t.cols idCol) := by rw [range_map_getD]
  rw [hr] at hp
  exact hp

theorem keptIdxA_eq_of_nodup {t : Table} {idCol : String}
    (hnd : (t.rows.map (rowKeyA t.cols idCol)).Nodup) :
    keptIdxA t idCol = sortedIdxA t idCol :=
  firstOccur_eq_self _ (((sorted_keys_perm t idCol).nodup_iff).mpr hnd)

theorem removedIdxA_eq_nil_of_nodup {t : Table} {idCol : String}
    (hnd : (t.rows.map (rowKeyA t.cols idCol)).Nodup) :
    removedIdxA t idCol = [] := by
  rw [removedIdxA, List.filter_eq_nil_iff]
  intro a ha
  simp [keptIdxA_eq_of_nodup hnd, ha]

theorem two_le_count_not_nodup {α : Type} [BEq α] [LawfulBEq α] :
    ∀ {l : List α} {a : α}, 2 ≤ l.count a → ¬ l.Nodup
  | [], a, h, _ => by simp at h
  | x :: xs, a, h, hnd => by
    obtain ⟨hx, hxs⟩ := List.nodup_cons.mp hnd
    rw [List.count_cons] at h
    by_cases hxa : x = a
    · simp only [hxa, beq_self_eq_true, if_true] at h
      refine hx ?_
      rw [hxa]
      exact (@List.count_pos_iff _ _ _ a xs).mp (by omega)
    · rw [if_neg (by simpa using hxa)] at h
      exact @two_le_count_not_nodup α _ _ xs a (by omega) hxs

theorem groupCountA_eq_zero_of_nodup {t : Table} {idCol : String}
    (hnd : (t.rows.map (rowKeyA t.cols idCol)).Nodup) :
    groupCountA t idCol = 0 := by
  have hany : (dupMaskA t idCol).any (fun b => b) = false := by
    rw [List.any_eq_false]
    intro b hb
    obtain ⟨k, hk, hbk⟩ := List.mem_map.mp hb
    subst hbk
    simp only [decide_eq_true_eq]
    intro h2
    exact two_le_count_not_nodup h2 hnd
  simp [groupCountA, hany]

theorem cleaned_keys_nodup (t : Table) (idCol : String) :
    ((checkA t idCol).cleaned.rows.map (rowKeyA t.cols idCol)).Nodup := by
  show (((keptIdxA t idCol).map (rowAt t)).map (rowKeyA t.cols idCol)).Nodup
  rw [List.map_map]
  exact firstOccur_map_nodup (keyAt t idCol) (sortedIdxA t idCol)

/-- C7: the cleaned table has pairwise distinct Rule-A keys, so re-running
`run_check_A` on it removes zero rows and finds zero duplicate groups. -/
theorem claim_C7 (t : Table) (idCol : String) (h : idCol ∈ t.cols) :
    run_check_A t idCol = .ok (checkA t idCol) ∧
    ((checkA t idCol).cleaned.rows.map (rowKeyA t.cols idCol)).Nodup ∧
    run_check_A (checkA t idCol).cleaned idCol
      = .ok (checkA (checkA t idCol).cleaned idCol) ∧
    (checkA (checkA t idCol).cleaned idCol).removedCount = 0 ∧
    (checkA (checkA t idCol).cleaned idCol).groupCount = 0 := by
  have hnd := cleaned_keys_nodup t idCol
  refine ⟨run_check_A_ok h, hnd, run_check_A_ok h, ?_, ?_⟩
  · show (removedIdxA (checkA t idCol).cleaned idCol).length = 0
    rw [removedIdxA_eq_nil_of_nodup hnd]
    rfl
  · exact groupCountA_eq_zero_of_nodup hnd

/-- A table with one duplicate pair, for the idempotence witness. -/
def tblIdem : Table := ⟨["externalId", "v"], [["1", "x"], ["2", "x"], ["3", "y"]]⟩

/-- Witness for C7. -/
theorem claim_C7_witness :
    run_check_A tblIdem "externalId" = .ok (checkA tblIdem "externalId") ∧
    ((checkA tblIdem "externalId").cleaned.rows.map (rowKeyA tblIdem.cols "externalId")).Nodup ∧
    run_check_A (checkA tblIdem "externalId").cleaned "externalId"
      = .ok (checkA (checkA tblIdem "externalId").cleaned "externalId") ∧
    (checkA (checkA tblIdem "externalId").cleaned "externalId").removedCount = 0 ∧
    (checkA (checkA tblIdem "externalId").cleaned "externalId").groupCount = 0 :=
  claim_C7 tblIdem "externalId" (by decide)

/-! ### Claim C8 -/

theorem dupMaskA_getD {t : Table} {idCol : String} {i : Nat} (hi : i < t.rows.length) :
    (dupMaskA t idCol).getD i false
      = decide (2 ≤ (keysA t idCol).count ((keysA t idCol).getD i [])) := by
  have hlen : i < (keysA t idCol).length := by
    rw [keysA, List.length_map]
    exact hi
  have hlen2 : i < (dupMaskA t idCol).length := by
    rw [dupMaskA, List.length_map]
    exact hlen
  rw [List.getD_eq_getElem _ _ hlen2, List.getD_eq_getElem _ _ hlen]
  simp [dupMaskA, List.getElem_map]

theorem zip_map_filterMap {β : Type} (p : β → Bool) (l : List β) :
    ((l.map p).zip l).filterMap (fun q => if q.1 then some q.2 else none) = l.filter p := by
  induction l with
  | nil => rfl
  | cons b bs ih =>
    simp only [List.map_cons, List.zip_cons_cons, List.filterMap_cons]
    cases hpb : p b <;> simp [List.filter_cons, hpb, ih]

theorem flaggedKeysA_eq (t : Table) (idCol : String) :
    flaggedKeysA t idCol
      = (keysA t idCol).filter (fun k => decide (2 ≤ (keysA t idCol).count k)) :=
  zip_map_filterMap _ _

theorem groupCountA_eq (t : Table) (idCol : String) :
    groupCountA t idCol
      = ((keysA t idCol).dedup.filter
          (fun k => decide (2 ≤ (keysA t idCol).count k))).length := by
  by_cases hany : (dupMaskA t idCol).any (fun b => b) = true
  · rw [groupCountA, if_pos hany, flaggedKeysA_eq]
    apply List.Perm.length_eq
    apply (List.perm_ext_iff_of_nodup (firstOccur_id_nodup _)
      (List.Nodup.filter _ (List.nodup_dedup _))).mpr
    intro a
    rw [mem_firstOccur_id, List.mem_filter, List.mem_filter, List.mem_dedup]
  · rw [groupCountA, if_neg hany]
    have h2 : ∀ b ∈ dupMaskA t idCol, ¬ b = true := by
      rw [← List.any_eq_false]
      exact Bool.eq_false_iff.mpr hany
    symm
    rw [List.length_eq_zero, List.filter_eq_nil_iff]
    intro k hk hdk
    have hkk : k ∈ keysA t idCol := List.mem_dedup.mp hk
    have hmem : decide (2 ≤ (keysA t idCol).count k) ∈ dupMaskA t idCol :=
      List.mem_map_of_mem _ hkk
    exact h2 _ hmem hdk

/-- C8: the Rule-A membership flag of a row is true exactly when the row's
key — its values in every column except the identifier column — occurs at
least twice, and the group count equals the number of distinct keys occurring
at least twice. -/
theorem claim_C8 (t : Table) (idCol : String) (h : idCol ∈ t.cols) (i : Nat)
    (hi : i < t.rows.length) :
    run_check_A t idCol = .ok (checkA t idCol) ∧
    ((checkA t idCol).dupMask.getD i false = true ↔
      2 ≤ (keysA t idCol).count ((keysA t idCol).getD i [])) ∧
    (checkA t idCol).groupCount
      = ((keysA t idCol).dedup.filter
          (fun k => decide (2 ≤ (keysA t idCol).count k))).length := by
  refine ⟨run_check_A_ok h, ?_, groupCountA_eq t idCol⟩
  show (dupMaskA t idCol).getD i false = true ↔ _
  rw [dupMaskA_getD hi]
  simp

/-- A table with one duplicate pair and one singleton, for the C8 witness. -/
def tblCount : Table := ⟨["externalId", "v"], [["1", "x"], ["2", "x"], ["3", "y"]]⟩

/-- Witness for C8. -/
theorem claim_C8_witness :
    run_check_A tblCount "externalId" = .ok (checkA tblCount "externalId") ∧
    ((checkA tblCount "externalId").dupMask.getD 0 false = true ↔
      2 ≤ (keysA tblCount "externalId").count ((keysA tblCount "externalId").getD 0 [])) ∧
    (checkA tblCount "externalId").groupCount
      = ((keysA tblCount "externalId").dedup.filter
          (fun k => decide (2 ≤ (keysA tblCount "externalId").count k))).length :=
  claim_C8 tblCount "externalId" (by decide) 0 (by decide)

/-! ### Claim C2 -/

/-- C2 is false on the code: `_norm_rate` divides by 100 only when the parsed
value itself exceeds 1.0, not when its magnitude does.  "-8.1" parses to the
value -81/10, whose magnitude exceeds 1, yet the result is "-8.100000" and
not the claimed "-0.081000". -/
theorem claim_C2_counterexample :
    parseDec (preRate ("-8.1")) = some ⟨-81, 1⟩ ∧
    10 ^ (1 : Nat) < ((-81 : Int)).natAbs ∧
    norm_rate ("-8.1") = "-8.100000" ∧
    fmt6 (div100 ⟨-81, 1⟩) = "-0.081000" ∧
    norm_rate ("-8.1") ≠ fmt6 (div100 ⟨-81, 1⟩) :=
  ⟨by decide, by decide, by decide, by decide, by decide⟩

/-- C2 (amended): the percentage reinterpretation applies when the parsed
signed value exceeds 1.0 — then the result is the value divided by 100 in
6-decimal form — but not when only the magnitude exceeds 1.0: the negative
"-8.1" is returned unscaled as "-8.100000". -/
theorem claim_C2 (s : String) (d : DecNum) (hp : parseDec (preRate s) = some d)
    (hgt : (10 : Int) ^ d.exp < d.num) :
    norm_rate s = fmt6 (div100 d) ∧ norm_rate ("-8.1") = "-8.100000" := by
  constructor
  · simp [norm_rate, hp, gtOneB, hgt]
  · decide

/-- Witness for C2 (amended) at "8.1". -/
theorem claim_C2_witness :
    norm_rate ("8.1") = fmt6 (div100 ⟨81, 1⟩) ∧ norm_rate ("-8.1") = "-8.100000" :=
  claim_C2 ("8.1") ⟨81, 1⟩ (by decide) (by decide)

/-! ### Claim C9 -/

/-- C9: the normalizers are total functions (they exist as Lean functions
over all strings and never fail); in particular, when the rate parse fails,
`_norm_rate` falls back to the diacritic-stripped lowercased trimmed input,
and `_norm_bool` always returns "true", "false" or the stripped lowercase
input. -/
theorem claim_C9 (s : String) (hp : parseDec (preRate s) = none) :
    norm_rate s = pyStrip (to_ascii_lower s) ∧
    (norm_bool s = "true" ∨ norm_bool s = "false" ∨
      norm_bool s = pyLower (pyStrip s)) := by
  constructor
  · simp [norm_rate, hp]
  · simp only [norm_bool]
    split_ifs with h1 h2
    · exact Or.inl rfl
    · exact Or.inr (Or.inl rfl)
    · exact Or.inr (Or.inr rfl)

/-- Witness for C9 at the unparsable rate "abc". -/
theorem claim_C9_witness :
    norm_rate ("abc") = pyStrip (to_ascii_lower ("abc")) ∧
    (norm_bool ("abc") = "true" ∨ norm_bool ("abc") = "false" ∨
      norm_bool ("abc") = pyLower (pyStrip ("abc"))) :=
  claim_C9 ("abc") (by decide)

/-! ### Claim C5 -/

theorem two_le_count_of_lt_getElem {α : Type} [BEq α] [LawfulBEq α] {l : List α} {i j : Nat}
    (hi : i < l.length) (hj : j < l.length) (hij : i < j) (hv : l[i] = l[j]) :
    2 ≤ l.count l[i] := by
  have h1 : l[i] ∈ l.take j := by
    have hlt : i < (l.take j).length := by
      rw [List.length_take]
      omega
    have hge : (l.take j)[i] = l[i] := List.getElem_take l
    rw [← hge]
    exact List.getElem_mem hlt
  have h2 : l[i] ∈ l.drop j := by
    rw [hv, List.drop_eq_getElem_cons hj]
    exact List.mem_cons_self _ _
  have hc1 : 0 < (l.take j).count l[i] := List.count_pos_iff.mpr h1
  have hc2 : 0 < (l.drop j).count l[i] := List.count_pos_iff.mpr h2
  have hca := List.count_append (l[i]) (l.take j) (l.drop j)
  rw [List.take_append_drop] at hca
  omega

theorem two_le_count_of_getElem {α : Type} [BEq α] [LawfulBEq α] {l : List α} {i j : Nat}
    (hi : i < l.length) (hj : j < l.length) (hij : i ≠ j) (hv : l[i] = l[j]) :
    2 ≤ l.count l[i] := by
  rcases Nat.lt_or_gt_of_ne hij with h | h
  · exact two_le_count_of_lt_getElem hi hj h hv
  · rw [hv]
    exact two_le_count_of_lt_getElem hj hi h hv.symm

theorem keysB_getElem {t : Table} {i : Nat} (hi : i < t.rows.length)
    (hl : i < (keysB t).length) :
    (keysB t)[i] = coreKey t.cols (rowAt t i) := by
  show (t.rows.map (coreKey t.cols))[i] = _
  rw [List.getElem_map]
  rw [rowAt, List.getD_eq_getElem _ _ hi]

theorem dupMaskB_getD {t : Table} {i : Nat} (hi : i < t.rows.length) :
    (dupMaskB t).getD i false
      = decide (2 ≤ (keysB t).count (coreKey t.cols (rowAt t i))) := by
  have hlen : i < (keysB t).length := by
    show i < (t.rows.map (coreKey t.cols)).length
    rw [List.length_map]
    exact hi
  have hlen2 : i < (dupMaskB t).length := by
    rw [dupMaskB, List.length_map]
    exact hlen
  rw [List.getD_eq_getElem _ _ hlen2]
  show ((keysB t).map (fun k => decide (2 ≤ (keysB t).count k)))[i] = _
  rw [List.getElem_map, keysB_getElem hi hlen]

/-- C5: two rows whose six normalized core fields coincide are both flagged
as Rule-B duplicates; in particular the name normalization identifies
"Cleaning Services" with "cleaning" and the rate normalization identifies
"8,1%" with "0.081". -/
theorem claim_C5 (t : Table) (idCol : String) (h : coreMissing t = []) (i j : Nat)
    (hi : i < t.rows.length) (hj : j < t.rows.length) (hij : i ≠ j)
    (hkey : coreKey t.cols (rowAt t i) = coreKey t.cols (rowAt t j)) :
    run_check_B t idCol = .ok (checkB t idCol) ∧
    (checkB t idCol).dupMask.getD i false = true ∧
    (checkB t idCol).dupMask.getD j false = true ∧
    norm_name ("Cleaning Services") = norm_name ("cleaning") ∧
    norm_rate ("8,1%") = norm_rate ("0.081") := by
  have hli : i < (keysB t).length := by
    show i < (t.rows.map (coreKey t.cols)).length
    rw [List.length_map]
    exact hi
  have hlj : j < (keysB t).length := by
    show j < (t.rows.map (coreKey t.cols)).length
    rw [List.length_map]
    exact hj
  have hv : (keysB t)[i] = (keysB t)[j] := by
    rw [keysB_getElem hi hli, keysB_getElem hj hlj, hkey]
  have hcnt_i : 2 ≤ (keysB t).count (coreKey t.cols (rowAt t i)) := by
    rw [← keysB_getElem hi hli]
    exact two_le_count_of_getElem hli hlj hij hv
  have hcnt_j : 2 ≤ (keysB t).count (coreKey t.cols (rowAt t j)) := by
    rw [← keysB_getElem hj hlj, ← hv]
    exact two_le_count_of_getElem hli hlj hij hv
  refine ⟨by simp [run_check_B, normalize_core_view, h], ?_, ?_, by decide, by decide⟩
  · show (dupMaskB t).getD i false = true
    rw [dupMaskB_getD hi]
    simpa using hcnt_i
  · show (dupMaskB t).getD j false = true
    rw [dupMaskB_getD hj]
    simpa using hcnt_j

/-- The two-row table of the C5 normalization example. -/
def tblNorm : Table :=
  ⟨["taxExemption", "name", "recipientCountry", "category", "vendorCountry",
    "itemsTaxRate", "externalId"],
   [["true", "Cleaning Services", "DE", "cat", "DE", "8,1%", "A1"],
    ["true", "cleaning", "DE", "cat", "DE", "0.081", "A2"]]⟩

/-- Witness for C5 at the Cleaning-Services/cleaning, 8,1%/0.081 table. -/
theorem claim_C5_witness :
    run_check_B tblNorm "externalId" = .ok (checkB tblNorm "externalId") ∧
    (checkB tblNorm "externalId").dupMask.getD 0 false = true ∧
    (checkB tblNorm "externalId").dupMask.getD 1 false = true ∧
    norm_name ("Cleaning Services") = norm_name ("cleaning") ∧
    norm_rate ("8,1%") = norm_rate ("0.081") :=
  claim_C5 tblNorm "externalId" (by decide) 0 1 (by decide) (by decide) (by decide) (by decide)

/-! ### Claim C3 -/

/-- A Rule-B duplicate pair sharing one identifier value. -/
def tblBDup : Table :=
  ⟨["taxExemption", "name", "recipientCountry", "category", "vendorCountry",
    "itemsTaxRate", "externalId"],
   [["", "", "", "", "", "", "X"], ["", "", "", "", "", "", "X"]]⟩

/-- C3 is false on the code: `run_check_B` applies `drop_duplicates()` to the
identifier column, so with 2 flagged rows both carrying identifier "X" the
output holds 1 entry, not 2. -/
theorem claim_C3_counterexample :
    run_check_B tblBDup "externalId" = .ok (checkB tblBDup "externalId") ∧
    (checkB tblBDup "externalId").dupMask = [true, true] ∧
    (checkB tblBDup "externalId").externalIds = ["X"] ∧
    (checkB tblBDup "externalId").externalIds.length ≠ 2 :=
  ⟨rfl, by decide, by decide, by decide⟩

/-- C3 (amended): the Rule-B identifier output is the duplicate-eliminated
list of identifiers of the flagged rows: its entries are pairwise distinct,
and a string appears in it exactly when some flagged row carries it as
identifier. -/
theorem claim_C3 (t : Table) (idCol : String) (h : coreMissing t = []) :
    run_check_B t idCol = .ok (checkB t idCol) ∧
    (checkB t idCol).externalIds.Nodup ∧
    ∀ s : String, s ∈ (checkB t idCol).externalIds ↔
      ∃ p ∈ (dupMaskB t).zip t.rows, p.1 = true ∧ getCell t.cols p.2 idCol = s := by
  refine ⟨by simp [run_check_B, normalize_core_view, h], firstOccur_id_nodup _, ?_⟩
  intro s
  show s ∈ firstOccur (fun s => s) _ ↔ _
  rw [mem_firstOccur_id, List.mem_filterMap]
  constructor
  · rintro ⟨p, hp, hps⟩
    refine ⟨p, hp, ?_⟩
    rcases p with ⟨b, r⟩
    cases b
    · simp at hps
    · simp only [if_true] at hps
      simp at hps
      exact ⟨rfl, hps⟩
  · rintro ⟨p, hp, hb, hcell⟩
    exact ⟨p, hp, by simp [hb, hcell]⟩

/-- Witness for C3 (amended). -/
theorem claim_C3_witness :
    run_check_B tblBDup "externalId" = .ok (checkB tblBDup "externalId") ∧
    (checkB tblBDup "externalId").externalIds.Nodup ∧
    ∀ s : String, s ∈ (checkB tblBDup "externalId").externalIds ↔
      ∃ p ∈ (dupMaskB tblBDup).zip tblBDup.rows,
        p.1 = true ∧ getCell tblBDup.cols p.2 "externalId" = s :=
  claim_C3 tblBDup "externalId" (by decide)

/-! ### Claim C6 -/

theorem joinComma_mem_split : ∀ (l : List String) (c : String), c ∈ l →
    ∃ s1 s2, joinComma l = s1 ++ c ++ s2
  | [], c, hc => absurd hc (List.not_mem_nil c)
  | [a], c, hc => by
    obtain rfl := List.mem_singleton.mp hc
    exact ⟨"", "", by simp [joinComma]⟩
  | a :: b :: rest, c, hc => by
    rcases List.mem_cons.mp hc with rfl | hc2
    · refine ⟨"", ", " ++ joinComma (b :: rest), ?_⟩
      show c ++ ", " ++ joinComma (b :: rest) = "" ++ c ++ (", " ++ joinComma (b :: rest))
      simp [String.append_assoc]
    · obtain ⟨s1, s2, hs⟩ := joinComma_mem_split (b :: rest) c hc2
      refine ⟨a ++ ", " ++ s1, s2, ?_⟩
      show a ++ ", " ++ joinComma (b :: rest) = a ++ ", " ++ s1 ++ c ++ s2
      rw [hs]
      simp [String.append_assoc]

/-- C6: a missing identifier column makes `run_check_A` fail with an error
message naming that column before any result is produced, and missing core
fields make `normalize_core_view` (hence `run_check_B`) fail with a message
naming every missing column before any result is produced. -/
theorem claim_C6 (t : Table) (idCol : String) :
    (idCol ∉ t.cols →
      run_check_A t idCol = .error ("Spalte \x27" ++ idCol ++ "\x27 fehlt.") ∧
      ∃ s1 s2, ("Spalte \x27" ++ idCol ++ "\x27 fehlt.") = s1 ++ idCol ++ s2) ∧
    (coreMissing t ≠ [] →
      run_check_B t idCol
        = .error ("Folgende Spalten fehlen für Prüfung B: " ++ joinComma (coreMissing t)) ∧
      normalize_core_view t
        = .error ("Folgende Spalten fehlen für Prüfung B: " ++ joinComma (coreMissing t)) ∧
      ∀ c ∈ coreMissing t, ∃ s1 s2,
        ("Folgende Spalten fehlen für Prüfung B: " ++ joinComma (coreMissing t))
          = s1 ++ c ++ s2) := by
  constructor
  · intro h
    exact ⟨by simp [run_check_A, h], "Spalte \x27", "\x27 fehlt.", rfl⟩
  · intro h
    have hn : normalize_core_view t
        = .error ("Folgende Spalten fehlen für Prüfung B: " ++ joinComma (coreMissing t)) := by
      simp [normalize_core_view, h]
    refine ⟨?_, hn, ?_⟩
    · show (match normalize_core_view t with
        | .ok _ => Except.ok (checkB t idCol)
        | .error e => Except.error e) = _
      rw [hn]
    · intro c hc
      obtain ⟨s1, s2, hs⟩ := joinComma_mem_split (coreMissing t) c hc
      refine ⟨"Folgende Spalten fehlen für Prüfung B: " ++ s1, s2, ?_⟩
      rw [hs]
      simp [String.append_assoc]

/-- Witness for C6 at the empty table, which lacks every required column. -/
theorem claim_C6_witness :
    (run_check_A (Table.mk [] []) "externalId"
        = .error ("Spalte \x27" ++ "externalId" ++ "\x27 fehlt.") ∧
      ∃ s1 s2, ("Spalte \x27" ++ "externalId" ++ "\x27 fehlt.") = s1 ++ "externalId" ++ s2) ∧
    (run_check_B (Table.mk [] []) "externalId"
        = .error ("Folgende Spalten fehlen für Prüfung B: "
            ++ joinComma (coreMissing (Table.mk [] []))) ∧
      normalize_core_view (Table.mk [] [])
        = .error ("Folgende Spalten fehlen für Prüfung B: "
            ++ joinComma (coreMissing (Table.mk [] []))) ∧
      ∀ c ∈ coreMissing (Table.mk [] []), ∃ s1 s2,
        ("Folgende Spalten fehlen für Prüfung B: " ++ joinComma (coreMissing (Table.mk [] [])))
          = s1 ++ c ++ s2) :=
  ⟨(claim_C6 (Table.mk [] []) "externalId").1 (by decide),
   (claim_C6 (Table.mk [] []) "externalId").2 (by decide)⟩
